import Mathlib

/-!
Verification of the RustOOX symbolic-execution engine core
(src/exec: locks.rs, mpor.rs, fork.rs, eval_reference.rs, heuristics.rs,
heuristics/md2u_recursive.rs) against its natural-language specification.

The Rust code is shallowly embedded: `HashMap` values become association
lists (key lookup via the first matching entry; keys are unique in every
reachable Rust map), `VecDeque` queues become lists, thread tables become
lists of thread records, and panicking paths (`unreachable!`, `todo!`,
`unwrap`) become `Option`/`Except` failures.
-/

namespace RustOOX

/-- Thread state, as used across `locks.rs`, `mpor.rs` and `heuristics.rs`
(`ThreadState::{Enabled, Disabled, Finished, Excepted}`). -/
inductive ThreadState
  | Enabled
  | Disabled
  | Finished
  | Excepted
deriving DecidableEq, Repr

/-- Expression fragment of `Expression` (the constructors reference
resolution and the alias map actually inspect): concrete references,
symbolic references, conditionals, variables and integer literals. -/
inductive Expr
  | Ref (ref_ : Int)
  | SymbolicRef (var : String)
  | Conditional (guard true_ false_ : Expr)
  | Var (var : String)
  | Lit (n : Int)
deriving DecidableEq, Repr

/-- MPOR access-set element (`Access` in `mpor.rs`): reference sets are
may-point-to sets of concrete references, element indices are expressions. -/
inductive Access
  | FieldRead (refs : List Int) (field : String)
  | FieldWrite (refs : List Int) (field : String)
  | ElemRead (refs : List Int) (index : Expr)
  | ElemWrite (refs : List Int) (index : Expr)
  | LockAction (refs : List Int)
  | Join (tid : Nat)
  | FinishedThread (parents : List Nat)
deriving DecidableEq, Repr

/-- A thread record (`exec::Thread` as read and written by `locks.rs`,
`mpor.rs` and `heuristics.rs`): tid, program counter, state, parent set,
and the MPOR `prev_accesses` set. The stack is omitted here; the functions
embedded below never inspect it. -/
structure Thread where
  tid : Nat
  pc : Nat
  state : ThreadState
  parents : List Nat
  prev_accesses : Option (List Access)
deriving DecidableEq, Repr

/-- The slice of `exec::State` the embedded functions touch: the thread
table (listed in ascending-tid iteration order), the active thread,
the lock-request queues, and the path bookkeeping used by the driver. -/
structure EState where
  threads : List Thread
  active_thread : Nat
  lock_requests : List (Int × List Nat)
  path : List (Nat × Nat)
  path_length : Nat
  path_id : Nat
deriving DecidableEq, Repr

/-- Key lookup in a list of thread records (the `tid → Thread` hash map;
tids are unique keys). -/
def findThread (t : Nat) : List Thread → Option Thread
  | [] => none
  | th :: ths => if th.tid == t then some th else findThread t ths

/-- Thread-table lookup (`state.threads[&tid]` / `get`). -/
def getThread (s : EState) (t : Nat) : Option Thread :=
  findThread t s.threads

/-- State of a thread in the table, if present. -/
def getState (s : EState) (t : Nat) : Option ThreadState :=
  (getThread s t).map (fun th => th.state)

/-- `state.threads.get_mut(&tid).unwrap().state = st`: update the state of
the thread with the given tid (tids are unique keys in the Rust map). -/
def setThreadState (s : EState) (t : Nat) (st : ThreadState) : EState :=
  { s with threads := s.threads.map (fun th => if th.tid == t then { th with state := st } else th) }

/-- `lock_requests.get(r)`: the queue stored under the given reference key
(keys are unique in the hash map). -/
def lookupLock : List (Int × List Nat) → Int → Option (List Nat)
  | [], _ => none
  | e :: l, r => if e.1 == r then some e.2 else lookupLock l r

/-- `lock_ref` (locks.rs lines 68-80): if an entry for the reference exists,
append the active tid to its queue and disable the active thread; otherwise
create the entry with an empty queue (the acquiring thread holds the lock
and is not enqueued). -/
def lock_ref (s : EState) (r : Int) : EState :=
  match lookupLock s.lock_requests r with
  | some _ =>
      setThreadState
        { s with lock_requests :=
            s.lock_requests.map (fun e => if e.1 == r then (e.1, e.2 ++ [s.active_thread]) else e) }
        s.active_thread .Disabled
  | none => { s with lock_requests := (r, []) :: s.lock_requests }

/-- `unlock_ref` (locks.rs lines 119-128): remove the entry for the
reference, if any, and enable every queued tid; absent entry is a no-op. -/
def unlock_ref (s : EState) (r : Int) : EState :=
  match lookupLock s.lock_requests r with
  | some q =>
      q.foldl (fun st t => setThreadState st t .Enabled)
        { s with lock_requests := s.lock_requests.filter (fun e => !(e.1 == r)) }
  | none => s

/-- `check_deadlock` (locks.rs lines 9-16). The Rust function returns unit
and panics via `unreachable!` on deadlock; the panic is embedded as
`Except.error`, as is the index panic if thread 0 is missing. -/
def check_deadlock (s : EState) : Except String Unit :=
  match getState s 0 with
  | none => .error ("no thread 0")
  | some st0 =>
      if !(s.threads.any (fun t => t.state == .Enabled)) && !(st0 == .Finished) then
        .error ("DEADLOCK")
      else
        .ok ()

/-- `MethodIdentifier` (cfg module): declaring class name, method name and
argument type list (runtime types embedded as names); the key of the md2u
method-cost cache. -/
structure MethodIdentifier where
  decl_name : String
  method_name : String
  arg_list : List String
deriving DecidableEq, Repr

/-- CFG statement fragment (`cfg::CFGStatement` as inspected by `locks.rs`
and `md2u_recursive.rs`): plain statements, `Lock`/`Unlock`, `Join`,
invocation statements (a `Call` statement or an assignment whose rhs is an
`RhsCall`, carrying the resolved method set that `methods_called`
extracts), `While` nodes and `FunctionExit` nodes. -/
inductive Stmt
  | Join
  | Lock (identifier : String)
  | Unlock (identifier : String)
  | Invoke (methods : List MethodIdentifier)
  | Other
deriving DecidableEq, Repr

/-- CFG node kinds distinguished by the embedded functions. -/
inductive CFGStmt
  | Statement (s : Stmt)
  | While
  | FunctionExit
deriving DecidableEq, Repr

/-- `threads.values().any(|t| t.parents.contains(tid) && t.state != Finished)`:
some still-living thread lists `x` as a parent. -/
def anyLiving (ts : List Thread) (x : Nat) : Bool :=
  ts.any (fun u => u.parents.contains x && u.state != .Finished)

/-- One iteration of the `update_joins` loop body for the cloned pair
(tid, pc): if the program statement at `pc` is a `Join`, set the thread's
state to `Disabled` when some still-living thread lists it as a parent and
to `Enabled` otherwise. -/
def joinStep (program : Nat → CFGStmt) (st : EState) (p : Nat × Nat) : EState :=
  match program p.2 with
  | .Statement .Join =>
      if anyLiving st.threads p.1 then setThreadState st p.1 .Disabled
      else setThreadState st p.1 .Enabled
  | _ => st

/-- `update_joins` (locks.rs lines 130-143): iterate over a clone of the
thread table and update the state of every thread whose current statement
is a `Join`, reading liveness from the mutated table. -/
def update_joins (program : Nat → CFGStmt) (s : EState) : EState :=
  (s.threads.map (fun t => (t.tid, t.pc))).foldl (joinStep program) s

/-- Releasing a reference with no `lock_requests` entry returns the state
unchanged (the `remove` misses and the enabling loop never runs). -/
theorem unlock_ref_absent_eq (s : EState) (r : Int)
    (h : lookupLock s.lock_requests r = none) :
    unlock_ref s r = s := by
  simp [unlock_ref, h]

/-! ### C10: releasing an unheld lock is a silent no-op -/

/-- C10: for every state and reference, executing `unlock_ref` when
`lock_requests` has no entry for the reference leaves the state unchanged:
no thread state changes and the lock table is unmodified. -/
theorem unlock_ref_noop (s : EState) (r : Int)
    (h : lookupLock s.lock_requests r = none) :
    unlock_ref s r = s :=
  unlock_ref_absent_eq s r h

/-- Witness for C10: a concrete state holding a lock on reference 3 only;
unlocking reference 5 changes nothing. -/
theorem unlock_ref_noop_witness :
    lookupLock ([((3 : Int), [1])]) 5 = none ∧
      unlock_ref ⟨[⟨0, 4, .Enabled, [], none⟩], 0, [((3 : Int), [1])], [], 0, 0⟩ 5
        = ⟨[⟨0, 4, .Enabled, [], none⟩], 0, [((3 : Int), [1])], [], 0, 0⟩ :=
  ⟨by decide, unlock_ref_noop ⟨[⟨0, 4, .Enabled, [], none⟩], 0, [((3 : Int), [1])], [], 0, 0⟩ 5 (by decide)⟩

/-! ### C3: deadlock handling -/

/-- C3: on the deadlocked state with the single thread 0 `Disabled`
(no thread `Enabled`, thread 0 not `Finished`, no thread `Excepted`),
`check_deadlock` does not return an `InvalidFork` position to the caller:
it panics (`unreachable!("DEADLOCK")`), aborting the process. -/
theorem check_deadlock_panics_on_deadlock :
    check_deadlock ⟨[⟨0, 4, .Disabled, [], none⟩], 0, [((3 : Int), [0])], [], 0, 0⟩
      = .error ("DEADLOCK") := by
  rfl

/-! ### Basic lemmas about the thread table and the lock table -/

theorem findThread_cons (t : Nat) (th : Thread) (ths : List Thread) :
    findThread t (th :: ths) = if th.tid == t then some th else findThread t ths := rfl

theorem lookupLock_cons_ne (e : Int × List Nat) (l : List (Int × List Nat)) (r : Int)
    (h : ¬ e.1 = r) : lookupLock (e :: l) r = lookupLock l r := by
  have hb : (e.1 == r) = false := by simpa using h
  simp [lookupLock, hb]

theorem lookupLock_cons_eq (e : Int × List Nat) (l : List (Int × List Nat)) (r : Int)
    (h : e.1 = r) : lookupLock (e :: l) r = some e.2 := by
  have hb : (e.1 == r) = true := by simpa using h
  simp [lookupLock, hb]

theorem getState_setThreadState (s : EState) (u t : Nat) (v : ThreadState) :
    getState (setThreadState s u v) t
      = if t = u then (getState s t).map (fun _ => v) else getState s t := by
  simp only [getState, getThread, setThreadState]
  induction s.threads with
  | nil => simp [findThread]
  | cons th ths ih =>
      rw [List.map_cons, findThread_cons, findThread_cons]
      by_cases h1 : th.tid = u
      · have hA : (if th.tid == u then ({ th with state := v } : Thread) else th)
            = { th with state := v } := by simp [h1]
        rw [hA]
        by_cases h2 : th.tid = t
        · have ht : t = u := by rw [← h2, h1]
          have hb : (({ th with state := v } : Thread).tid == t) = true := by simp [h2]
          have hb2 : (th.tid == t) = true := by simp [h2]
          simp [hb, hb2, ht, h1, h2]
        · have hb : (({ th with state := v } : Thread).tid == t) = false := by simp [h2]
          have hb2 : (th.tid == t) = false := by simp [h2]
          simp only [hb, hb2, Bool.false_eq_true, if_false]
          exact ih
      · have hA : (if th.tid == u then ({ th with state := v } : Thread) else th) = th := by
          simp [h1]
        rw [hA]
        by_cases h2 : th.tid = t
        · have ht : ¬ t = u := by rw [← h2]; exact h1
          have hb2 : (th.tid == t) = true := by simp [h2]
          simp [hb2, ht, h1, h2]
        · have hb2 : (th.tid == t) = false := by simp [h2]
          simp only [hb2, Bool.false_eq_true, if_false]
          exact ih

theorem getState_congr_threads (s1 s2 : EState) (h : s1.threads = s2.threads) (x : Nat) :
    getState s1 x = getState s2 x := by
  simp [getState, getThread, h]

theorem enable_foldl_lock_requests (q : List Nat) (s : EState) :
    (q.foldl (fun st x => setThreadState st x .Enabled) s).lock_requests = s.lock_requests := by
  induction q generalizing s with
  | nil => rfl
  | cons x q ih => simpa using ih (setThreadState s x .Enabled)

theorem getState_enable_foldl (q : List Nat) (s : EState) (t : Nat) :
    getState (q.foldl (fun st x => setThreadState st x .Enabled) s) t
      = if t ∈ q then (getState s t).map (fun _ => ThreadState.Enabled) else getState s t := by
  induction q generalizing s with
  | nil => simp
  | cons x q ih =>
      have hcomp : ∀ (o : Option ThreadState),
          (o.map (fun _ => ThreadState.Enabled)).map (fun _ => ThreadState.Enabled)
            = o.map (fun _ => ThreadState.Enabled) := by
        intro o; cases o <;> rfl
      simp only [List.foldl_cons, ih, getState_setThreadState, List.mem_cons]
      by_cases hx : t = x
      · subst hx
        by_cases hq : t ∈ q <;> simp [hq, hcomp]
      · simp [hx]

theorem lookupLock_append_update (l : List (Int × List Nat)) (r r' : Int) (a : Nat) :
    lookupLock (l.map (fun e => if e.1 == r then (e.1, e.2 ++ [a]) else e)) r'
      = if r' = r then (lookupLock l r).map (fun q => q ++ [a]) else lookupLock l r' := by
  induction l with
  | nil => simp [lookupLock]
  | cons e l ih =>
      by_cases he : e.1 = r
      · have hEq : (if e.1 == r then (e.1, e.2 ++ [a]) else e) = (e.1, e.2 ++ [a]) := by
          simp [he]
        rw [List.map_cons, hEq]
        by_cases hr : r' = r
        · rw [if_pos hr, lookupLock_cons_eq (e.1, e.2 ++ [a]) _ r' (he.trans hr.symm),
              lookupLock_cons_eq e l r he]
          rfl
        · have hne : ¬ e.1 = r' := by intro hc; apply hr; rw [← hc]; exact he
          rw [lookupLock_cons_ne (e.1, e.2 ++ [a]) _ r' hne, ih, if_neg hr, if_neg hr,
              lookupLock_cons_ne e l r' hne]
      · have hEq : (if e.1 == r then (e.1, e.2 ++ [a]) else e) = e := by simp [he]
        rw [List.map_cons, hEq]
        by_cases hr : r' = e.1
        · have hne : ¬ (r' = r) := by rw [hr]; exact he
          rw [lookupLock_cons_eq e _ r' hr.symm, if_neg hne, lookupLock_cons_eq e l r' hr.symm]
        · have hne : ¬ e.1 = r' := fun hc => hr hc.symm
          rw [lookupLock_cons_ne e _ r' hne, ih]
          by_cases hrr : r' = r
          · rw [if_pos hrr, if_pos hrr, lookupLock_cons_ne e l r he]
          · rw [if_neg hrr, if_neg hrr, lookupLock_cons_ne e l r' hne]

theorem lookupLock_filter_out (l : List (Int × List Nat)) (r r' : Int) :
    lookupLock (l.filter (fun e => !(e.1 == r))) r'
      = if r' = r then none else lookupLock l r' := by
  induction l with
  | nil => simp [lookupLock]
  | cons e l ih =>
      by_cases he : e.1 = r
      · have hb : (!(e.1 == r)) = false := by simp [he]
        rw [List.filter_cons, if_neg (by simp [hb]), ih]
        by_cases hr : r' = r
        · rw [if_pos hr, if_pos hr]
        · have hne : ¬ e.1 = r' := by intro hc; apply hr; rw [← hc]; exact he
          rw [if_neg hr, if_neg hr, lookupLock_cons_ne e l r' hne]
      · have hb : (!(e.1 == r)) = true := by simp [he]
        rw [List.filter_cons, if_pos (by simp [hb])]
        by_cases hr : r' = e.1
        · have hne : ¬ (r' = r) := by rw [hr]; exact he
          rw [lookupLock_cons_eq e _ r' hr.symm, if_neg hne, lookupLock_cons_eq e l r' hr.symm]
        · have hne : ¬ e.1 = r' := fun hc => hr hc.symm
          rw [lookupLock_cons_ne e _ r' hne, ih]
          by_cases hrr : r' = r
          · rw [if_pos hrr, if_pos hrr]
          · rw [if_neg hrr, if_neg hrr, lookupLock_cons_ne e l r' hne]

/-! ### Characterization of lock_ref and unlock_ref -/

theorem lock_ref_absent (s : EState) (r : Int)
    (h : lookupLock s.lock_requests r = none) :
    (lock_ref s r).lock_requests = (r, []) :: s.lock_requests
      ∧ (lock_ref s r).threads = s.threads := by
  simp [lock_ref, h]

theorem lock_ref_present_locks (s : EState) (r : Int) (q : List Nat)
    (h : lookupLock s.lock_requests r = some q) (r' : Int) :
    lookupLock (lock_ref s r).lock_requests r'
      = if r' = r then some (q ++ [s.active_thread]) else lookupLock s.lock_requests r' := by
  simp only [lock_ref, h]
  show lookupLock (s.lock_requests.map
      (fun e => if e.1 == r then (e.1, e.2 ++ [s.active_thread]) else e)) r'
    = if r' = r then some (q ++ [s.active_thread]) else lookupLock s.lock_requests r'
  rw [lookupLock_append_update, h]
  by_cases hr : r' = r
  · rw [if_pos hr, if_pos hr]; rfl
  · rw [if_neg hr, if_neg hr]

theorem lock_ref_present_state (s : EState) (r : Int) (q : List Nat)
    (h : lookupLock s.lock_requests r = some q) (x : Nat) :
    getState (lock_ref s r) x
      = if x = s.active_thread then (getState s x).map (fun _ => ThreadState.Disabled)
        else getState s x := by
  simp only [lock_ref, h]
  rw [getState_setThreadState]
  rfl

theorem unlock_ref_present_locks (s : EState) (r : Int) (q : List Nat)
    (h : lookupLock s.lock_requests r = some q) (r' : Int) :
    lookupLock (unlock_ref s r).lock_requests r'
      = if r' = r then none else lookupLock s.lock_requests r' := by
  simp only [unlock_ref, h]
  rw [enable_foldl_lock_requests]
  exact lookupLock_filter_out s.lock_requests r r'

theorem unlock_ref_present_state (s : EState) (r : Int) (q : List Nat)
    (h : lookupLock s.lock_requests r = some q) (x : Nat) :
    getState (unlock_ref s r) x
      = if x ∈ q then (getState s x).map (fun _ => ThreadState.Enabled) else getState s x := by
  simp only [unlock_ref, h]
  rw [getState_enable_foldl]
  rfl

theorem lock_ref_present_locksP (s : EState) (t : Nat) (r : Int) (q : List Nat)
    (h : lookupLock s.lock_requests r = some q) (r' : Int) :
    lookupLock (lock_ref { s with active_thread := t } r).lock_requests r'
      = if r' = r then some (q ++ [t]) else lookupLock s.lock_requests r' :=
  lock_ref_present_locks { s with active_thread := t } r q h r'

theorem lock_ref_present_stateP (s : EState) (t : Nat) (r : Int) (q : List Nat)
    (h : lookupLock s.lock_requests r = some q) (x : Nat) :
    getState (lock_ref { s with active_thread := t } r) x
      = if x = t then (getState s x).map (fun _ => ThreadState.Disabled) else getState s x :=
  lock_ref_present_state { s with active_thread := t } r q h x

theorem unlock_ref_present_locksP (s : EState) (t : Nat) (r : Int) (q : List Nat)
    (h : lookupLock s.lock_requests r = some q) (r' : Int) :
    lookupLock (unlock_ref { s with active_thread := t } r).lock_requests r'
      = if r' = r then none else lookupLock s.lock_requests r' :=
  unlock_ref_present_locks { s with active_thread := t } r q h r'

theorem unlock_ref_present_stateP (s : EState) (t : Nat) (r : Int) (q : List Nat)
    (h : lookupLock s.lock_requests r = some q) (x : Nat) :
    getState (unlock_ref { s with active_thread := t } r) x
      = if x ∈ q then (getState s x).map (fun _ => ThreadState.Enabled) else getState s x :=
  unlock_ref_present_state { s with active_thread := t } r q h x

/-! ### C4: the lock-queue discipline as a transition system -/

/-- A lock-discipline event: the named thread executes the `Lock` or
`Unlock` statement on the given resolved reference, reaching
`lock_ref`/`unlock_ref` through `update_next_locks` →
`exec_lock`/`exec_unlock`. The driver only schedules `Enabled` threads
(heuristics.rs line 86), so an event by a non-enabled thread cannot be
scheduled and is embedded as a no-op. -/
inductive LockEvent
  | lockE (t : Nat) (r : Int)
  | unlockE (t : Nat) (r : Int)
deriving DecidableEq, Repr

/-- One scheduled lock/unlock step: the acting thread is the active thread
of the state it executes in (the driver clones the state per enabled
thread, rewriting `active_thread`). -/
def stepEvent (s : EState) (e : LockEvent) : EState :=
  match e with
  | .lockE t r =>
      if getState s t = some .Enabled then lock_ref { s with active_thread := t } r else s
  | .unlockE t r =>
      if getState s t = some .Enabled then unlock_ref { s with active_thread := t } r else s

/-- Run a sequence of lock-discipline events. -/
def runEvents (evs : List LockEvent) (s : EState) : EState :=
  evs.foldl stepEvent s

/-- Every tid queued in some `lock_requests` entry is `Disabled` (a waiter). -/
def QueuedDisabled (s : EState) : Prop :=
  ∀ r q, lookupLock s.lock_requests r = some q → ∀ t ∈ q, getState s t = some .Disabled

/-- Queues of distinct references never share a tid. -/
def QueuesDisjoint (s : EState) : Prop :=
  ∀ r r' q q', r ≠ r' → lookupLock s.lock_requests r = some q →
    lookupLock s.lock_requests r' = some q' → ∀ t ∈ q, t ∉ q'

/-- The lock-queue invariant preserved by every scheduled event. -/
def LockInv (s : EState) : Prop := QueuedDisabled s ∧ QueuesDisjoint s

theorem lockInv_step (s : EState) (e : LockEvent) (h : LockInv s) :
    LockInv (stepEvent s e) := by
  obtain ⟨hq, hd⟩ := h
  cases e with
  | lockE t r =>
      simp only [stepEvent]
      by_cases hen : getState s t = some .Enabled
      · rw [if_pos hen]
        have htnotin : ∀ r' q', lookupLock s.lock_requests r' = some q' → t ∉ q' := by
          intro r' q' hl hmem
          have hx := hq r' q' hl t hmem
          rw [hen] at hx
          cases hx
        cases hlk : lookupLock s.lock_requests r with
        | none =>
            obtain ⟨hl, ht⟩ := lock_ref_absent { s with active_thread := t } r hlk
            constructor
            · intro r' q' hlook t' ht'
              rw [hl] at hlook
              rw [getState_congr_threads _ s ht]
              by_cases hr : r' = r
              · rw [lookupLock_cons_eq ((r : Int), ([] : List Nat)) _ r' hr.symm] at hlook
                cases hlook; cases ht'
              · rw [lookupLock_cons_ne ((r : Int), ([] : List Nat)) _ r'
                      (fun hc => hr hc.symm)] at hlook
                exact hq r' q' hlook t' ht'
            · intro r1 r2 q1 q2 hne h1 h2 t1 h1m
              rw [hl] at h1 h2
              by_cases hr1 : r1 = r
              · rw [lookupLock_cons_eq ((r : Int), ([] : List Nat)) _ r1 hr1.symm] at h1
                cases h1; cases h1m
              · rw [lookupLock_cons_ne ((r : Int), ([] : List Nat)) _ r1
                      (fun hc => hr1 hc.symm)] at h1
                by_cases hr2 : r2 = r
                · rw [lookupLock_cons_eq ((r : Int), ([] : List Nat)) _ r2 hr2.symm] at h2
                  cases h2; simp
                · rw [lookupLock_cons_ne ((r : Int), ([] : List Nat)) _ r2
                        (fun hc => hr2 hc.symm)] at h2
                  exact hd r1 r2 q1 q2 hne h1 h2 t1 h1m
        | some q0 =>
            have hLq := lock_ref_present_locksP s t r q0 hlk
            have hSt := lock_ref_present_stateP s t r q0 hlk
            constructor
            · intro r' q' hlook t' ht'
              rw [hLq r'] at hlook
              rw [hSt t']
              by_cases hr : r' = r
              · rw [if_pos hr] at hlook
                have hq' : q' = q0 ++ [t] := by cases hlook; rfl
                subst hq'
                rcases List.mem_append.mp ht' with hin | hin
                · have hdis := hq r q0 hlk t' hin
                  have htt : ¬ t' = t := by
                    intro hc; subst hc
                    exact htnotin r q0 hlk hin
                  rw [if_neg htt]
                  exact hdis
                · have htt : t' = t := by simpa using hin
                  rw [if_pos htt, htt, hen]
                  rfl
              · rw [if_neg hr] at hlook
                have hdis := hq r' q' hlook t' ht'
                have htt : ¬ t' = t := by
                  intro hc; subst hc
                  exact htnotin r' q' hlook ht'
                rw [if_neg htt]
                exact hdis
            · intro r1 r2 q1 q2 hne h1 h2 t1 h1m
              rw [hLq r1] at h1
              rw [hLq r2] at h2
              by_cases hr1 : r1 = r
              · have hr2 : ¬ (r2 = r) := fun hc => hne (hr1.trans hc.symm)
                rw [if_pos hr1] at h1
                rw [if_neg hr2] at h2
                have hq1 : q1 = q0 ++ [t] := by cases h1; rfl
                subst hq1
                rcases List.mem_append.mp h1m with hin | hin
                · exact hd r r2 q0 q2 (fun hc => hr2 hc.symm) hlk h2 t1 hin
                · have htt : t1 = t := by simpa using hin
                  subst htt
                  exact htnotin r2 q2 h2
              · rw [if_neg hr1] at h1
                by_cases hr2 : r2 = r
                · rw [if_pos hr2] at h2
                  have hq2 : q2 = q0 ++ [t] := by cases h2; rfl
                  subst hq2
                  intro hmem
                  rcases List.mem_append.mp hmem with hin | hin
                  · exact hd r1 r q1 q0 (fun hc => hr1 hc) h1 hlk t1 h1m hin
                  · have htt : t1 = t := by simpa using hin
                    exact htnotin r1 q1 h1 (htt ▸ h1m)
                · rw [if_neg hr2] at h2
                  exact hd r1 r2 q1 q2 hne h1 h2 t1 h1m
      · rw [if_neg hen]
        exact ⟨hq, hd⟩
  | unlockE t r =>
      simp only [stepEvent]
      by_cases hen : getState s t = some .Enabled
      · rw [if_pos hen]
        cases hlk : lookupLock s.lock_requests r with
        | none =>
            rw [unlock_ref_absent_eq { s with active_thread := t } r hlk]
            exact ⟨hq, hd⟩
        | some q0 =>
            have hLq := unlock_ref_present_locksP s t r q0 hlk
            have hSt := unlock_ref_present_stateP s t r q0 hlk
            constructor
            · intro r' q' hlook t' ht'
              rw [hLq r'] at hlook
              rw [hSt t']
              by_cases hr : r' = r
              · rw [if_pos hr] at hlook
                cases hlook
              · rw [if_neg hr] at hlook
                have hdis := hq r' q' hlook t' ht'
                have hnotq0 : t' ∉ q0 :=
                  fun hc => hd r r' q0 q' (fun hc2 => hr hc2.symm) hlk hlook t' hc ht'
                rw [if_neg hnotq0]
                exact hdis
            · intro r1 r2 q1 q2 hne h1 h2 t1 h1m
              rw [hLq r1] at h1
              rw [hLq r2] at h2
              by_cases hr1 : r1 = r
              · rw [if_pos hr1] at h1
                cases h1
              · by_cases hr2 : r2 = r
                · rw [if_pos hr2] at h2
                  cases h2
                · rw [if_neg hr1] at h1
                  rw [if_neg hr2] at h2
                  exact hd r1 r2 q1 q2 hne h1 h2 t1 h1m
      · rw [if_neg hen]
        exact ⟨hq, hd⟩

theorem lockInv_runEvents (evs : List LockEvent) (s : EState) (h : LockInv s) :
    LockInv (runEvents evs s) := by
  induction evs generalizing s with
  | nil => exact h
  | cons e evs ih => exact ih (stepEvent s e) (lockInv_step s e h)

/-- Initial two-thread lockless state for the C4 counterexample. -/
def c4Init : EState :=
  ⟨[⟨0, 0, .Enabled, [], none⟩, ⟨1, 0, .Enabled, [], none⟩], 0, [], [], 0, 0⟩

/-- C4 counterexample: thread 0 executes Acquire(5) first, without any
intervening Release(5), creating the entry and holding the lock (it stays
`Enabled` and is not enqueued); thread 1 then executes Acquire(5) and
blocks. The resulting queue for reference 5 is [1]: its head is the
blocked waiter (thread 1, `Disabled`), not the thread that acquired the
lock (thread 0), refuting the claim that the head of `lock_requests[r]`
is the holder. -/
theorem lock_queue_head_is_waiter :
    lookupLock (runEvents [.lockE 0 5, .lockE 1 5] c4Init).lock_requests 5 = some [1]
      ∧ getState (runEvents [.lockE 0 5, .lockE 1 5] c4Init) 0 = some .Enabled
      ∧ getState (runEvents [.lockE 0 5, .lockE 1 5] c4Init) 1 = some .Disabled :=
  ⟨rfl, rfl, rfl⟩

/-- C4 (amended): for every `lock_requests[r]`, the queue holds only the
waiters, not the holder: (1) the Acquire(r) that finds no entry creates it
with an empty queue, leaving the thread table unchanged (the holder is not
enqueued); (2) an Acquire(r) that finds an entry appends the acquiring tid
to the tail and disables that thread; (3) Release(r) deletes the entry and
enables every queued tid; (4) in every state reachable from a lockless
initial state by scheduled Acquire/Release events, every tid queued in any
`lock_requests` entry is `Disabled` (a waiter). -/
theorem lock_queue_holds_waiters :
    (∀ (s : EState) (r : Int), lookupLock s.lock_requests r = none →
        lookupLock (lock_ref s r).lock_requests r = some []
          ∧ (lock_ref s r).threads = s.threads)
    ∧ (∀ (s : EState) (r : Int) (q : List Nat), lookupLock s.lock_requests r = some q →
        lookupLock (lock_ref s r).lock_requests r = some (q ++ [s.active_thread])
          ∧ getState (lock_ref s r) s.active_thread
              = (getState s s.active_thread).map (fun _ => ThreadState.Disabled))
    ∧ (∀ (s : EState) (r : Int) (q : List Nat), lookupLock s.lock_requests r = some q →
        lookupLock (unlock_ref s r).lock_requests r = none
          ∧ ∀ t ∈ q, getState (unlock_ref s r) t
              = (getState s t).map (fun _ => ThreadState.Enabled))
    ∧ (∀ (evs : List LockEvent) (s0 : EState), s0.lock_requests = [] →
        QueuedDisabled (runEvents evs s0)) := by
  refine ⟨?_, ?_, ?_, ?_⟩
  · intro s r h
    obtain ⟨hl, ht⟩ := lock_ref_absent s r h
    refine ⟨?_, ht⟩
    rw [hl, lookupLock_cons_eq ((r : Int), ([] : List Nat)) _ r rfl]
  · intro s r q h
    refine ⟨?_, ?_⟩
    · rw [lock_ref_present_locks s r q h r, if_pos rfl]
    · rw [lock_ref_present_state s r q h s.active_thread, if_pos rfl]
  · intro s r q h
    refine ⟨?_, ?_⟩
    · rw [unlock_ref_present_locks s r q h r, if_pos rfl]
    · intro t ht
      rw [unlock_ref_present_state s r q h t, if_pos ht]
  · intro evs s0 h0
    have hInv : LockInv s0 := by
      constructor
      · intro r q hl
        rw [h0] at hl
        cases hl
      · intro r r' q q' hne hl
        rw [h0] at hl
        cases hl
    exact (lockInv_runEvents evs s0 hInv).1

/-- Witness for the amended C4 theorem, applying each part at a concrete
input: the entry-creating acquire yields an empty queue; a second acquire
appends the acquirer; after two scheduled acquires from a lockless start,
the single queued tid is a disabled waiter. -/
theorem lock_queue_holds_waiters_witness :
    lookupLock (lock_ref ⟨[⟨0, 0, .Enabled, [], none⟩], 0, [], [], 0, 0⟩ 7).lock_requests 7
        = some []
      ∧ lookupLock (lock_ref ⟨[⟨0, 0, .Enabled, [], none⟩], 0, [((7 : Int), [])], [], 0, 0⟩
            7).lock_requests 7 = some [0]
      ∧ getState (runEvents [.lockE 0 7, .lockE 1 7]
          ⟨[⟨0, 0, .Enabled, [], none⟩, ⟨1, 0, .Enabled, [], none⟩], 0, [], [], 0, 0⟩) 1
          = some .Disabled := by
  refine ⟨?_, ?_, ?_⟩
  · exact (lock_queue_holds_waiters.1 ⟨[⟨0, 0, .Enabled, [], none⟩], 0, [], [], 0, 0⟩ 7 rfl).1
  · have h := (lock_queue_holds_waiters.2.1
      ⟨[⟨0, 0, .Enabled, [], none⟩], 0, [((7 : Int), [])], [], 0, 0⟩ 7 [] rfl).1
    simpa using h
  · exact lock_queue_holds_waiters.2.2.2 [.lockE 0 7, .lockE 1 7]
      ⟨[⟨0, 0, .Enabled, [], none⟩, ⟨1, 0, .Enabled, [], none⟩], 0, [], [], 0, 0⟩ rfl
      7 [1] rfl 1 (List.mem_singleton.mpr rfl)

/-! ### C8: join readiness -/

/-- Projection of a thread to the data `update_joins` conditions read:
tid, parent set, and liveness (not `Finished`). -/
def projT (th : Thread) : Nat × List Nat × Bool :=
  (th.tid, th.parents, th.state != .Finished)

theorem anyLiving_eq_proj (ts : List Thread) (x : Nat) :
    anyLiving ts x = (ts.map projT).any (fun y => y.2.1.contains x && y.2.2) := by
  induction ts with
  | nil => rfl
  | cons th ths ih =>
      simp only [anyLiving, List.any_cons, List.map_cons] at ih ⊢
      rw [ih]
      rfl

theorem anyLiving_congr (ts1 ts2 : List Thread)
    (h : ts1.map projT = ts2.map projT) (x : Nat) :
    anyLiving ts1 x = anyLiving ts2 x := by
  rw [anyLiving_eq_proj, anyLiving_eq_proj, h]

theorem tids_eq_of_proj_eq (ts1 ts2 : List Thread)
    (h : ts1.map projT = ts2.map projT) :
    ts1.map (fun th => th.tid) = ts2.map (fun th => th.tid) := by
  have h2 := congrArg (List.map (fun y : Nat × List Nat × Bool => y.1)) h
  simpa [List.map_map, projT, Function.comp] using h2

theorem getState_isSome (s : EState) (x : Nat) :
    (getState s x).isSome = true ↔ x ∈ s.threads.map (fun th => th.tid) := by
  simp only [getState, getThread]
  induction s.threads with
  | nil => simp [findThread]
  | cons th ths ih =>
      by_cases h : th.tid = x
      · simp [findThread, h]
      · have hb : (th.tid == x) = false := by simp [h]
        simp only [findThread, hb, Bool.false_eq_true, if_false, List.map_cons, List.mem_cons]
        rw [ih]
        constructor
        · exact Or.inr
        · rintro (hc | hc)
          · exact absurd hc.symm h
          · exact hc

theorem proj_setThread_list (u : Nat) (v : ThreadState) (hv : (v != ThreadState.Finished) = true) :
    ∀ (ts : List Thread), (∀ th ∈ ts, th.tid = u → (th.state != ThreadState.Finished) = true) →
      (ts.map (fun th => if th.tid == u then { th with state := v } else th)).map projT
        = ts.map projT
  | [], _ => rfl
  | th :: ths, hu => by
      have ihr := proj_setThread_list u v hv ths
        (fun th2 hm h2 => hu th2 (List.mem_cons_of_mem _ hm) h2)
      by_cases h : th.tid = u
      · have hlive := hu th (List.mem_cons_self _ _) h
        simp only [List.map_cons, ihr]
        congr 1
        simp [projT, h, hv, hlive]
      · simp only [List.map_cons, ihr]
        congr 1
        simp [projT, h]

theorem proj_setThreadState (s : EState) (u : Nat) (v : ThreadState)
    (hv : (v != ThreadState.Finished) = true)
    (hu : ∀ th ∈ s.threads, th.tid = u → (th.state != ThreadState.Finished) = true) :
    (setThreadState s u v).threads.map projT = s.threads.map projT :=
  proj_setThread_list u v hv s.threads hu

theorem getState_joinStep_ne (program : Nat → CFGStmt) (st : EState) (p : Nat × Nat) (x : Nat)
    (h : ¬ x = p.1) :
    getState (joinStep program st p) x = getState st x := by
  cases hps : program p.2 with
  | Statement stm =>
      cases stm with
      | Join =>
          simp only [joinStep, hps]
          by_cases hA : anyLiving st.threads p.1
          · rw [if_pos hA, getState_setThreadState, if_neg h]
          · rw [if_neg hA, getState_setThreadState, if_neg h]
      | Lock i => simp [joinStep, hps]
      | Unlock i => simp [joinStep, hps]
      | Invoke ms => simp [joinStep, hps]
      | Other => simp [joinStep, hps]
  | While => simp [joinStep, hps]
  | FunctionExit => simp [joinStep, hps]

theorem getState_joinFold_not_mem (program : Nat → CFGStmt) (l : List (Nat × Nat))
    (st : EState) (x : Nat) (hx : ∀ p ∈ l, ¬ x = p.1) :
    getState (l.foldl (joinStep program) st) x = getState st x := by
  induction l generalizing st with
  | nil => rfl
  | cons p l ih =>
      rw [List.foldl_cons, ih _ (fun p2 h2 => hx p2 (List.mem_cons_of_mem _ h2)),
        getState_joinStep_ne program st p x (hx p (List.mem_cons_self _ _))]

theorem filter_fst_nodup (l : List (Nat × Nat)) (hn : (l.map (fun p => p.1)).Nodup)
    (p : Nat × Nat) (hp : p ∈ l) :
    l.filter (fun q => q.1 == p.1) = [p] := by
  induction l with
  | nil => cases hp
  | cons q l ih =>
      rw [List.map_cons, List.nodup_cons] at hn
      obtain ⟨hq, hn2⟩ := hn
      rcases List.mem_cons.mp hp with hqq | hpl
      · subst hqq
        rw [List.filter_cons, if_pos (by simp)]
        have hrest : l.filter (fun q2 => q2.1 == p.1) = [] := by
          rw [List.filter_eq_nil_iff]
          intro a ha hc
          exact hq (List.mem_map.mpr ⟨a, ha, by simpa using hc⟩)
        rw [hrest]
      · have hne : ¬ (q.1 = p.1) := by
          intro hc
          exact hq (hc ▸ (List.mem_map.mpr ⟨p, hpl, rfl⟩))
        rw [List.filter_cons, if_neg (by simp [hne]), ih hn2 hpl]

theorem joinFold_getState (program : Nat → CFGStmt) (s0 : EState)
    (hnodup : (s0.threads.map (fun th => th.tid)).Nodup)
    (hjoin0 : ∀ th ∈ s0.threads, program th.pc = .Statement .Join → th.state ≠ .Finished) :
    ∀ (l : List (Nat × Nat)) (st : EState),
      st.threads.map projT = s0.threads.map projT →
      (∀ p ∈ l, ∃ th ∈ s0.threads, th.tid = p.1 ∧ th.pc = p.2) →
      ∀ (x pc : Nat), (x, pc) ∈ l → program pc = .Statement .Join →
      l.filter (fun p => p.1 == x) = [(x, pc)] →
      getState (l.foldl (joinStep program) st) x
        = some (if anyLiving s0.threads x then ThreadState.Disabled else ThreadState.Enabled) := by
  intro l
  induction l with
  | nil =>
      intro st hAgree hl x pc hmem
      cases hmem
  | cons p l ih =>
      intro st hAgree hl x pc hmem hpc honce
      have hsafe : ∀ (y : Nat), (∀ th0 ∈ s0.threads, th0.tid = y → th0.state ≠ .Finished) →
          ∀ th ∈ st.threads, th.tid = y → (th.state != ThreadState.Finished) = true := by
        intro y hy th hth hty
        have hmem2 : projT th ∈ s0.threads.map projT := by
          rw [← hAgree]
          exact List.mem_map.mpr ⟨th, hth, rfl⟩
        obtain ⟨th1, hth1, hproj⟩ := List.mem_map.mp hmem2
        have htid1 : th1.tid = y := by
          have := congrArg (fun z : Nat × List Nat × Bool => z.1) hproj
          simpa [projT, hty] using this
        have hlive1 : (th1.state != ThreadState.Finished) = true := by
          simp [hy th1 hth1 htid1]
        have := congrArg (fun z : Nat × List Nat × Bool => z.2.2) hproj
        simp only [projT] at this
        rw [this] at hlive1
        exact hlive1
      by_cases hpx : p.1 = x
      · have hfl : (p :: l).filter (fun p => p.1 == x)
            = p :: l.filter (fun p => p.1 == x) := by
          rw [List.filter_cons, if_pos (by simp [hpx])]
        rw [hfl] at honce
        have h1 : p :: l.filter (fun p => p.1 == x) = (x, pc) :: ([] : List (Nat × Nat)) := honce
        injection h1 with hp hfilter
        subst hp
        have hnx : ∀ p2 ∈ l, ¬ x = p2.1 := by
          intro p2 hp2 hc
          have hmemf : p2 ∈ l.filter (fun p => p.1 == x) :=
            List.mem_filter.mpr ⟨hp2, by simp [hc]⟩
          rw [hfilter] at hmemf
          cases hmemf
        have hAL : anyLiving st.threads x = anyLiving s0.threads x :=
          anyLiving_congr _ _ hAgree x
        have hstep : joinStep program st ((x, pc) : Nat × Nat)
            = if anyLiving s0.threads x then setThreadState st x .Disabled
              else setThreadState st x .Enabled := by
          simp only [joinStep, hpc, hAL]
        have hx0 : x ∈ s0.threads.map (fun th => th.tid) := by
          obtain ⟨th, hthm, hth1, hth2⟩ := hl (x, pc) (List.mem_cons_self _ _)
          exact List.mem_map.mpr ⟨th, hthm, hth1⟩
        have hxst : x ∈ st.threads.map (fun th => th.tid) := by
          rw [tids_eq_of_proj_eq _ _ hAgree]
          exact hx0
        have hsome : (getState st x).isSome = true := (getState_isSome st x).mpr hxst
        obtain ⟨v0, hv0⟩ := Option.isSome_iff_exists.mp hsome
        rw [List.foldl_cons, getState_joinFold_not_mem program l _ x hnx, hstep]
        by_cases hA : anyLiving s0.threads x
        · rw [if_pos hA, if_pos hA, getState_setThreadState, if_pos rfl, hv0]
          rfl
        · rw [if_neg hA, if_neg hA, getState_setThreadState, if_pos rfl, hv0]
          rfl
      · have hfl : (p :: l).filter (fun p => p.1 == x)
            = l.filter (fun p => p.1 == x) := by
          rw [List.filter_cons, if_neg (by simp [hpx])]
        rw [hfl] at honce
        have hmem2 : (x, pc) ∈ l := by
          rcases List.mem_cons.mp hmem with hc | hc
          · exact absurd (congrArg (fun q : Nat × Nat => q.1) hc.symm) hpx
          · exact hc
        have hAgree1 : (joinStep program st p).threads.map projT = s0.threads.map projT := by
          cases hps : program p.2 with
          | Statement stm =>
              cases stm with
              | Join =>
                  obtain ⟨th0, hth0, hth0t, hth0p⟩ := hl p (List.mem_cons_self _ _)
                  have hth0j : th0.state ≠ .Finished := by
                    apply hjoin0 th0 hth0
                    rw [hth0p]
                    exact hps
                  have hu : ∀ th ∈ st.threads, th.tid = p.1 →
                      (th.state != ThreadState.Finished) = true := by
                    apply hsafe p.1
                    intro th2 hth2 htid2
                    have hth2e : th2 = th0 :=
                      List.inj_on_of_nodup_map hnodup hth2 hth0 (by rw [htid2, hth0t])
                    rw [hth2e]
                    exact hth0j
                  simp only [joinStep, hps]
                  by_cases hA : anyLiving st.threads p.1
                  · rw [if_pos hA, proj_setThreadState st p.1 .Disabled (by decide) hu, hAgree]
                  · rw [if_neg hA, proj_setThreadState st p.1 .Enabled (by decide) hu, hAgree]
              | Lock i => simpa [joinStep, hps] using hAgree
              | Unlock i => simpa [joinStep, hps] using hAgree
              | Invoke ms => simpa [joinStep, hps] using hAgree
              | Other => simpa [joinStep, hps] using hAgree
          | While => simpa [joinStep, hps] using hAgree
          | FunctionExit => simpa [joinStep, hps] using hAgree
        rw [List.foldl_cons]
        exact ih (joinStep program st p) hAgree1
          (fun p2 hp2 => hl p2 (List.mem_cons_of_mem _ hp2)) x pc hmem2 hpc honce

/-- C8: at a driver tick (`update_joins` runs on a state in which no
`Finished` thread sits at a `Join` statement — the driver marks threads
`Finished` only at `FunctionExit` or when retiring the whole state), every
thread whose current statement is `Join` ends up `Enabled` iff no
still-living thread (one not `Finished`) lists its tid in its parent set,
and `Disabled` otherwise. -/
theorem update_joins_spec (program : Nat → CFGStmt) (s : EState)
    (hnodup : (s.threads.map (fun th => th.tid)).Nodup)
    (hjoin : ∀ th ∈ s.threads, program th.pc = .Statement .Join → th.state ≠ .Finished) :
    ∀ th ∈ s.threads, program th.pc = .Statement .Join →
      (getState (update_joins program s) th.tid = some .Enabled
          ↔ ¬ ∃ u ∈ s.threads, th.tid ∈ u.parents ∧ u.state ≠ .Finished)
      ∧ (getState (update_joins program s) th.tid = some .Disabled
          ↔ ∃ u ∈ s.threads, th.tid ∈ u.parents ∧ u.state ≠ .Finished) := by
  intro th hth hpc
  have hfst : (s.threads.map (fun t => (t.tid, t.pc))).map (fun p => p.1)
      = s.threads.map (fun t => t.tid) := by
    simp [List.map_map, Function.comp]
  have honce : (s.threads.map (fun t => (t.tid, t.pc))).filter
      (fun p => p.1 == th.tid) = [(th.tid, th.pc)] := by
    apply filter_fst_nodup _ (by rw [hfst]; exact hnodup) (th.tid, th.pc)
    exact List.mem_map.mpr ⟨th, hth, rfl⟩
  have hcore : getState (update_joins program s) th.tid
      = some (if anyLiving s.threads th.tid then ThreadState.Disabled
              else ThreadState.Enabled) := by
    apply joinFold_getState program s hnodup hjoin (s.threads.map (fun t => (t.tid, t.pc))) s
      rfl ?_ th.tid th.pc ?_ hpc honce
    · intro p hp
      obtain ⟨t2, ht2, hpt⟩ := List.mem_map.mp hp
      exact ⟨t2, ht2, by rw [← hpt], by rw [← hpt]⟩
    · exact List.mem_map.mpr ⟨th, hth, rfl⟩
  have hAL : anyLiving s.threads th.tid = true
      ↔ ∃ u ∈ s.threads, th.tid ∈ u.parents ∧ u.state ≠ .Finished := by
    simp [anyLiving, List.any_eq_true]
  by_cases hA : anyLiving s.threads th.tid
  · have hEx := hAL.mp hA
    rw [hcore, if_pos hA]
    exact ⟨⟨fun hc => absurd hc (by decide), fun hc => absurd hEx hc⟩,
      ⟨fun _ => hEx, fun _ => rfl⟩⟩
  · have hEx : ¬ ∃ u ∈ s.threads, th.tid ∈ u.parents ∧ u.state ≠ .Finished := by
      intro hc
      exact hA (hAL.mpr hc)
    rw [hcore, if_neg hA]
    exact ⟨⟨fun _ => hEx, fun _ => rfl⟩,
      ⟨fun hc => absurd hc (by decide), fun hc => absurd hc hEx⟩⟩

/-- Program for the C8 witness: pc 1 is a `Join`, everything else a plain
statement. -/
def joinProgW : Nat → CFGStmt :=
  fun pc => if pc = 1 then .Statement .Join else .Statement .Other

/-- State for the C8 witness: thread 1 sits at the `Join` (pc 1); thread 0
is a still-living child listing 1 as its parent. -/
def joinStateW : EState :=
  ⟨[⟨0, 0, .Enabled, [1], none⟩, ⟨1, 1, .Enabled, [], none⟩], 0, [], [], 0, 0⟩

/-- Witness for C8: with a living child of thread 1 present, `update_joins`
sets the joining thread 1 to `Disabled`. -/
theorem update_joins_spec_witness :
    getState (update_joins joinProgW joinStateW) 1 = some .Disabled :=
  ((update_joins_spec joinProgW joinStateW (by decide) (by decide)
      ⟨1, 1, .Enabled, [], none⟩ (by decide) (by decide)).2).mpr
    ⟨⟨0, 0, .Enabled, [1], none⟩, by decide, by decide, by decide⟩

/-! ### C2: the MPOR quasi-monotonicity filter -/

/-- The loop of `validate_quasi_monotonicity` (mpor.rs lines 18-28),
scanning the threads in ascending tid order (`values_mut().sorted_by_key`):
a thread with a recorded `prev_accesses` is cleared and passed when it is
the active thread or its accesses conflict with the current access set;
otherwise, if its tid is greater than the active tid the transition is
rejected (`out = false`) and the loop breaks, leaving the remaining
threads untouched. The conflict check (`has_access_conflicts`) consults
the prover through `compare_expression`/`eval_assertion` and is therefore
a parameter. -/
def mporScan (conflict : List Access → List Access → Bool) (active : Nat)
    (curr : List Access) : List Thread → Bool × List Thread
  | [] => (true, [])
  | t :: ts =>
    match t.prev_accesses with
    | some prev =>
        if t.tid == active || conflict prev curr then
          let r := mporScan conflict active curr ts
          (r.1, { t with prev_accesses := none } :: r.2)
        else if active < t.tid then
          (false, t :: ts)
        else
          let r := mporScan conflict active curr ts
          (r.1, t :: r.2)
    | none =>
        let r := mporScan conflict active curr ts
        (r.1, t :: r.2)

/-- The unconditional store of mpor.rs line 29:
`state.threads.get_mut(&state.active_thread).unwrap().prev_accesses = Some(curr_accesses)`. -/
def setPrev (ts : List Thread) (x : Nat) (v : Option (List Access)) : List Thread :=
  ts.map (fun t => if t.tid == x then { t with prev_accesses := v } else t)

/-- `validate_quasi_monotonicity` (mpor.rs lines 10-31): run the scan, then
store the current access set as the active thread's `prev_accesses` —
after the loop, whether the transition was accepted or rejected — and
return the accept/reject flag. The current access set (`get_all_accesses`
plus `get_lock_accesses`, which evaluate expressions through the external
evaluator) is a parameter. -/
def validate_quasi_monotonicity (conflict : List Access → List Access → Bool)
    (s : EState) (curr : List Access) : Bool × EState :=
  let r := mporScan conflict s.active_thread curr s.threads
  (r.1, { s with threads := setPrev r.2 s.active_thread (some curr) })

/-- State for the C2 counterexample: two threads, both with an empty
recorded access set; thread 0 is active. -/
def c2State : EState :=
  ⟨[⟨0, 0, .Enabled, [], some []⟩, ⟨1, 0, .Enabled, [], some []⟩], 0, [], [], 0, 0⟩

/-- C2 counterexample: with a conflict check that never reports a conflict,
thread 1 (tid greater than the active tid 0, non-conflicting
`prev_accesses`) makes the filter reject the transition — yet the active
thread's `prev_accesses` is still overwritten with the current access set
(it was `some []` before, `some [Join 5]` after), contradicting the claim
that a rejected transition leaves it as it was. -/
theorem mpor_reject_still_stores_prev :
    (validate_quasi_monotonicity (fun _ _ => false) c2State [Access.Join 5]).1 = false
      ∧ getThread c2State 0 = some ⟨0, 0, .Enabled, [], some []⟩
      ∧ getThread (validate_quasi_monotonicity (fun _ _ => false) c2State [Access.Join 5]).2 0
          = some ⟨0, 0, .Enabled, [], some [Access.Join 5]⟩ :=
  ⟨rfl, rfl, rfl⟩

theorem mporScan_true_threads (conflict : List Access → List Access → Bool)
    (active : Nat) (curr : List Access) :
    ∀ ts : List Thread, (mporScan conflict active curr ts).1 = true →
      (mporScan conflict active curr ts).2 = ts.map (fun t =>
        match t.prev_accesses with
        | some p => if t.tid == active || conflict p curr
                    then { t with prev_accesses := none } else t
        | none => t)
  | [], _ => rfl
  | t :: ts, htrue => by
      cases hprev : t.prev_accesses with
      | some p =>
          by_cases hcond : (t.tid == active || conflict p curr) = true
          · have hshape : mporScan conflict active curr (t :: ts)
                = ((mporScan conflict active curr ts).1,
                   { t with prev_accesses := none } :: (mporScan conflict active curr ts).2) := by
              simp [mporScan, hprev, hcond]
            rw [hshape] at htrue ⊢
            rw [List.map_cons, mporScan_true_threads conflict active curr ts htrue]
            simp [hprev, hcond]
          · by_cases hgt : active < t.tid
            · have hshape : mporScan conflict active curr (t :: ts) = (false, t :: ts) := by
                simp [mporScan, hprev, hcond, hgt]
              rw [hshape] at htrue
              cases htrue
            · have hshape : mporScan conflict active curr (t :: ts)
                  = ((mporScan conflict active curr ts).1,
                     t :: (mporScan conflict active curr ts).2) := by
                simp [mporScan, hprev, hcond, hgt]
              rw [hshape] at htrue ⊢
              rw [List.map_cons, mporScan_true_threads conflict active curr ts htrue]
              simp [hprev, hcond]
      | none =>
          have hshape : mporScan conflict active curr (t :: ts)
              = ((mporScan conflict active curr ts).1,
                 t :: (mporScan conflict active curr ts).2) := by
            simp [mporScan, hprev]
          rw [hshape] at htrue ⊢
          rw [List.map_cons, mporScan_true_threads conflict active curr ts htrue]
          simp [hprev]

theorem mporScan_false_iff (conflict : List Access → List Access → Bool)
    (active : Nat) (curr : List Access) :
    ∀ ts : List Thread,
      (mporScan conflict active curr ts).1 = false
        ↔ ∃ t ∈ ts, active < t.tid
            ∧ ∃ p, t.prev_accesses = some p ∧ conflict p curr = false
  | [] => by
      constructor
      · intro h; cases h
      · rintro ⟨t, hmem, _⟩; cases hmem
  | t :: ts => by
      cases hprev : t.prev_accesses with
      | some p =>
          by_cases hcond : (t.tid == active || conflict p curr) = true
          · have hshape : (mporScan conflict active curr (t :: ts)).1
                = (mporScan conflict active curr ts).1 := by
              simp [mporScan, hprev, hcond]
            rw [hshape, mporScan_false_iff conflict active curr ts]
            constructor
            · rintro ⟨u, hu, hgt, hp⟩
              exact ⟨u, List.mem_cons_of_mem _ hu, hgt, hp⟩
            · rintro ⟨u, hu, hgt, q, hq, hcf⟩
              rcases List.mem_cons.mp hu with hut | hut
              · subst hut
                rw [hprev] at hq
                injection hq with hq2
                subst hq2
                rcases Bool.or_eq_true_iff.mp hcond with hc | hc
                · have : u.tid = active := by simpa using hc
                  rw [this] at hgt
                  exact absurd hgt (lt_irrefl active)
                · rw [hc] at hcf
                  cases hcf
              · exact ⟨u, hut, hgt, q, hq, hcf⟩
          · by_cases hgt : active < t.tid
            · have hshape : (mporScan conflict active curr (t :: ts)).1 = false := by
                simp [mporScan, hprev, hcond, hgt]
              rw [hshape]
              constructor
              · intro _
                refine ⟨t, List.mem_cons_self _ _, hgt, p, hprev, ?_⟩
                cases hor : conflict p curr with
                | false => rfl
                | true => exact absurd (Bool.or_eq_true_iff.mpr (Or.inr hor)) hcond
              · intro _; rfl
            · have hshape : (mporScan conflict active curr (t :: ts)).1
                  = (mporScan conflict active curr ts).1 := by
                simp [mporScan, hprev, hcond, hgt]
              rw [hshape, mporScan_false_iff conflict active curr ts]
              constructor
              · rintro ⟨u, hu, hgt2, hp⟩
                exact ⟨u, List.mem_cons_of_mem _ hu, hgt2, hp⟩
              · rintro ⟨u, hu, hgt2, q, hq, hcf⟩
                rcases List.mem_cons.mp hu with hut | hut
                · subst hut
                  exact absurd hgt2 hgt
                · exact ⟨u, hut, hgt2, q, hq, hcf⟩
      | none =>
          have hshape : (mporScan conflict active curr (t :: ts)).1
              = (mporScan conflict active curr ts).1 := by
            simp [mporScan, hprev]
          rw [hshape, mporScan_false_iff conflict active curr ts]
          constructor
          · rintro ⟨u, hu, hgt, hp⟩
            exact ⟨u, List.mem_cons_of_mem _ hu, hgt, hp⟩
          · rintro ⟨u, hu, hgt, q, hq, hcf⟩
            rcases List.mem_cons.mp hu with hut | hut
            · subst hut
              rw [hprev] at hq
              cases hq
            · exact ⟨u, hut, hgt, q, hq, hcf⟩

/-- C2 (amended): the MPOR filter clears a thread's `prev_accesses` and
continues when the thread is the active thread or the current access set
conflicts with it, and rejects the transition exactly when some other
thread with a recorded non-conflicting access set has a tid greater than
the active tid; but the current access set is stored as the active
thread's new `prev_accesses` unconditionally — on rejection as well as on
acceptance. -/
theorem validate_quasi_monotonicity_spec
    (conflict : List Access → List Access → Bool) (s : EState) (curr : List Access) :
    ((validate_quasi_monotonicity conflict s curr).1 = false
        ↔ ∃ t ∈ s.threads, s.active_thread < t.tid
            ∧ ∃ p, t.prev_accesses = some p ∧ conflict p curr = false)
    ∧ (∀ t ∈ (validate_quasi_monotonicity conflict s curr).2.threads,
        t.tid = s.active_thread → t.prev_accesses = some curr)
    ∧ ((validate_quasi_monotonicity conflict s curr).1 = true →
        (validate_quasi_monotonicity conflict s curr).2.threads
          = s.threads.map (fun t =>
              if t.tid = s.active_thread then { t with prev_accesses := some curr }
              else match t.prev_accesses with
                   | some p => if conflict p curr
                               then { t with prev_accesses := none } else t
                   | none => t)) := by
  refine ⟨?_, ?_, ?_⟩
  · exact mporScan_false_iff conflict s.active_thread curr s.threads
  · intro t ht htid
    simp only [validate_quasi_monotonicity, setPrev] at ht
    obtain ⟨t0, ht0, hmap⟩ := List.mem_map.mp ht
    by_cases h0 : t0.tid = s.active_thread
    · rw [← hmap]
      simp [h0]
    · exfalso
      rw [← hmap] at htid
      have hb : (t0.tid == s.active_thread) = false := by simp [h0]
      rw [hb] at htid
      simp at htid
      exact h0 htid
  · intro htrue
    have hscan := mporScan_true_threads conflict s.active_thread curr s.threads htrue
    show setPrev (mporScan conflict s.active_thread curr s.threads).2
        s.active_thread (some curr) = _
    rw [hscan]
    simp only [setPrev, List.map_map]
    apply List.map_congr_left
    intro t ht
    by_cases h0 : t.tid = s.active_thread
    · have hb : (t.tid == s.active_thread) = true := by simp [h0]
      cases hprev : t.prev_accesses with
      | some p => simp [Function.comp, hprev, hb, h0]
      | none => simp [Function.comp, hprev, hb, h0]
    · have hb : (t.tid == s.active_thread) = false := by simp [h0]
      cases hprev : t.prev_accesses with
      | some p =>
          by_cases hc : conflict p curr
          · simp [Function.comp, hprev, hb, h0, hc]
          · simp [Function.comp, hprev, hb, h0, hc]
      | none => simp [Function.comp, hprev, hb, h0]

/-- State for the C2 witness: two threads with recorded access sets and
the highest tid (1) active, so the scan accepts the transition. -/
def c2StateW : EState :=
  ⟨[⟨0, 0, .Enabled, [], some []⟩, ⟨1, 0, .Enabled, [], some []⟩], 1, [], [], 0, 0⟩

/-- Witness for the amended C2 theorem: on an accepted transition the
non-active thread keeps its non-conflicting recorded accesses and the
active thread's `prev_accesses` becomes the current access set. -/
theorem validate_quasi_monotonicity_spec_witness :
    (validate_quasi_monotonicity (fun _ _ => false) c2StateW [Access.Join 5]).2.threads
      = [⟨0, 0, .Enabled, [], some []⟩, ⟨1, 0, .Enabled, [], some [Access.Join 5]⟩] :=
  ((validate_quasi_monotonicity_spec (fun _ _ => false) c2StateW [Access.Join 5]).2.2
      (by decide)).trans (by decide)

/-! ### C1: ExecRef over a symbolic reference -/

/-- Alias entry of the alias map: the ordered candidate list returned by
`aliases()`. -/
structure AliasEntry where
  aliases : List Expr
deriving DecidableEq, Repr

/-- Alias-map lookup (`state.alias_map[var]`). -/
def lookupAlias : List (String × AliasEntry) → String → Option AliasEntry
  | [], _ => none
  | e :: l, v => if e.1 == v then some e.2 else lookupAlias l v

/-- Observable behavior of one `exec_over_symbolic_ref` call: the over-ref
hook invoked once on a concrete reference, a panic, or an alias split that
reissues the operation on each successor. -/
inductive ExecRefOutcome
  | invoked (r : Int)
  | panicked
  | splitAndReissue (aliases : List (List Expr))
deriving DecidableEq, Repr

/-- `ExecRef::exec_over_symbolic_ref` (eval_reference.rs lines 53-71),
kept faithful to the source: `resulting_alias` is
`vec![alias_entry.aliases().clone()]` — a one-element vector whose single
element is the whole candidate list — so `resulting_alias.len() == 1`
always holds, the hook is invoked on `aliases()[0]` (the first candidate,
a panic if it is not a concrete `Ref` or the list is empty), and the
state-split branch of lines 68-70 is unreachable. -/
def exec_over_symbolic_ref (alias_map : List (String × AliasEntry)) (var : String) :
    ExecRefOutcome :=
  match lookupAlias alias_map var with
  | none => .panicked
  | some alias_entry =>
      let resulting_alias := [alias_entry.aliases]
      if resulting_alias.length == 1 then
        match alias_entry.aliases.head? with
        | some (Expr.Ref r) => .invoked r
        | some _ => .panicked
        | none => .panicked
      else
        .splitAndReissue [alias_entry.aliases]

/-- C1: with the alias entry for the variable holding TWO candidates
(Ref 1 and Ref 2), `exec_over_symbolic_ref` invokes the over-ref hook
directly on the first candidate only — the singleton-wrapped length check
always passes — and never splits the state into one successor per
candidate as the claim requires. -/
theorem exec_over_symbolic_ref_ignores_extra_aliases :
    exec_over_symbolic_ref [("p", ⟨[.Ref 1, .Ref 2]⟩)] ("p") = .invoked 1 := rfl

/-! ### C5: Fork -/

/-- A stack frame as constructed by `fork_invocation` (fork.rs 60-65). -/
structure StackFrame where
  return_pc : Nat
  returning_lhs : Option String
  params : List (String × Expr)
  current_member : String
deriving DecidableEq, Repr

/-- The thread record exactly as the fork.rs 57-66 struct literal builds
it: only `tid`, `pc` and `stack` — no parents field and no state field,
although `exec::Thread` as used by locks.rs (`t.parents`, `t.state`) and
mpor.rs (`thread.prev_accesses`) must carry them. -/
structure ForkThread where
  tid : Nat
  pc : Nat
  stack : List StackFrame
deriving DecidableEq, Repr

/-- The slice of state `fork_invocation` touches: the thread table and the
process-wide thread-id counter (`IdCounter::next_id` yields the fresh id
and advances). -/
structure ForkState where
  threads : List (Nat × ForkThread)
  thread_counter : Nat
deriving DecidableEq, Repr

/-- `HashMap::insert(tid, thread)`: replace the entry if the key exists,
else append. -/
def insertThread (l : List (Nat × ForkThread)) (k : Nat) (v : ForkThread) :
    List (Nat × ForkThread) :=
  if l.any (fun e => e.1 == k) then l.map (fun e => if e.1 == k then (k, v) else e)
  else l ++ [(k, v)]

/-- `fork_invocation` (fork.rs lines 22-68), after the arguments have been
evaluated and the callee entry resolved (`evaluate` and
`find_entry_for_static_invocation` are external collaborators): allocate a
fresh tid, build a single-frame stack whose frame returns to the entry pc
with no receiving lhs, and insert the new thread into the thread table. -/
def fork_invocation (s : ForkState) (next_entry : Nat) (params : List (String × Expr))
    (resolved_method : String) : ForkState :=
  let tid := s.thread_counter
  { threads := insertThread s.threads tid
      ⟨tid, next_entry, [⟨next_entry, none, params, resolved_method⟩]⟩,
    thread_counter := tid + 1 }

/-- C5: evaluating fork at a concrete invocation (thread counter at 7,
callee entry pc 5, forking thread 0 current): a fresh tid 7 is allocated
and the new thread is inserted at the callee entry with a single-frame
stack — but the constructed record carries no parent set and no thread
state, while the claim and spec require parents = { current tid } and
state `Enabled`. -/
theorem fork_invocation_missing_parent_and_state :
    fork_invocation ⟨[(0, ⟨0, 9, []⟩)], 7⟩ 5 [] ("m")
      = ⟨[(0, ⟨0, 9, []⟩), (7, ⟨7, 5, [⟨5, none, [], ("m")⟩]⟩)], 8⟩ := rfl

/-! ### C7: the driver retires states at the path-length / time budget -/

/-- `ActionResult` as matched by the driver loop (heuristics.rs 127-202). -/
inductive ActionResult
  | FunctionCall (pc : Nat)
  | Return (pc : Nat)
  | Continue
  | InvalidAssertion (pos : Nat)
  | InvalidFork (pos : Nat)
  | InfeasiblePath
  | Finish
  | Excepted
deriving DecidableEq, Repr

/-- `resulting_states.entry(pc).or_default().push(s)`. -/
def routeTo : List (Nat × List EState) → Nat → EState → List (Nat × List EState)
  | [], pc, s => [(pc, [s])]
  | e :: m, pc, s => if e.1 == pc then (e.1, e.2 ++ [s]) :: m else e :: routeTo m pc s

/-- Outcome of the scheduling loop: the resulting-states map on normal
completion, an offending source position on `InvalidAssertion`/`InvalidFork`,
a panic (`unreachable` CFG shapes), or fuel exhaustion of the embedding. -/
inductive DriverOut
  | done (resulting : List (Nat × List EState))
  | err (pos : Nat)
  | panicked
  | fuelOut
deriving DecidableEq, Repr

/-- Program counter of the active thread (`state.threads[&active].pc`). -/
def activePc (s : EState) : Option Nat :=
  (getThread s s.active_thread).map (fun th => th.pc)

/-- Rewrite the active thread's program counter
(`state.threads.get_mut(&active).unwrap().pc = next`). -/
def setActivePc (s : EState) (newPc : Nat) : EState :=
  { s with threads := s.threads.map (fun th =>
      if th.tid == s.active_thread then { th with pc := newPc } else th) }

/-- Retirement of heuristics.rs lines 108-111 and 193-196: mark the active
thread `Finished`. -/
def retireState (s : EState) : EState :=
  setThreadState s s.active_thread .Finished

/-- Clones of the `Continue` branch (heuristics.rs 158-170): one clone per
remaining neighbour pc, each with a fresh path id from the path counter. -/
def cloneForNeighbours (s2 : EState) (others : List Nat) (ctr : Nat) :
    List (Nat × EState) :=
  (others.zip ((List.range others.length).map (fun i => ctr + i))).map
    (fun p => (p.1, { setActivePc s2 p.1 with path_id := p.2 }))

/-- The scheduling loop of `execute_instruction_for_all_states`
(heuristics.rs lines 100-203), popping one scheduled state at a time. The
action step (`action`, defined outside this crate slice) is a parameter
that returns the mutated state, its `ActionResult`, and any states it
pushed onto the schedule; the wall clock is an oracle indexed by the
remaining fuel; the fuel only bounds the embedding's recursion. -/
def driverLoop (act : EState → EState × ActionResult × List EState)
    (program : Nat → CFGStmt) (flows : Nat → Option (List Nat))
    (k time_budget : Nat) (elapsed : Nat → Nat) :
    Nat → List EState → List (Nat × List EState) → Nat → DriverOut
  | _, [], resulting, _ => .done resulting
  | 0, _ :: _, _, _ => .fuelOut
  | fuel + 1, s0 :: rest, resulting, path_counter =>
      match activePc s0 with
      | none => .panicked
      | some pc0 =>
          let sp := { s0 with path := s0.path ++ [(s0.active_thread, pc0)] }
          if k ≤ sp.path_length ∨ time_budget ≤ elapsed fuel then
            let _retired := retireState sp
            driverLoop act program flows k time_budget elapsed fuel rest resulting
              path_counter
          else
            match act sp with
            | (s1, .FunctionCall next, pushed) =>
                driverLoop act program flows k time_budget elapsed fuel (pushed ++ rest)
                  (routeTo resulting next (setActivePc s1 next)) path_counter
            | (s1, .Return return_pc, pushed) =>
                match flows return_pc with
                | some (first :: _) =>
                    driverLoop act program flows k time_budget elapsed fuel (pushed ++ rest)
                      (routeTo resulting first (setActivePc s1 first)) path_counter
                | some [] => .panicked
                | none => .panicked
            | (s1, .Continue, pushed) =>
                match activePc s1 with
                | none => .panicked
                | some pcN =>
                    match flows pcN with
                    | some (first :: others) =>
                        let s2 : EState :=
                          { setActivePc s1 first with path_length := s1.path_length + 1 }
                        let clones := cloneForNeighbours s2 others path_counter
                        driverLoop act program flows k time_budget elapsed fuel
                          (pushed ++ rest)
                          (routeTo (clones.foldl (fun m p => routeTo m p.1 p.2) resulting)
                            first s2)
                          (path_counter + others.length)
                    | some [] => .panicked
                    | none =>
                        if program pcN = CFGStmt.FunctionExit then
                          driverLoop act program flows k time_budget elapsed fuel
                            (pushed ++ rest) (routeTo resulting pcN (retireState s1))
                            path_counter
                        else .panicked
            | (_, .InvalidAssertion pos, _) => .err pos
            | (_, .InvalidFork pos, _) => .err pos
            | (_, .InfeasiblePath, pushed) =>
                driverLoop act program flows k time_budget elapsed fuel (pushed ++ rest)
                  resulting path_counter
            | (s1, .Finish, pushed) =>
                match activePc s1 with
                | none => .panicked
                | some pcN =>
                    driverLoop act program flows k time_budget elapsed fuel (pushed ++ rest)
                      (routeTo resulting pcN (retireState s1)) path_counter
            | (s1, .Excepted, pushed) =>
                let _excepted := setThreadState s1 s1.active_thread .Excepted
                driverLoop act program flows k time_budget elapsed fuel (pushed ++ rest)
                  resulting path_counter

/-- C7: a popped state whose path length is at least k — or popped when the
elapsed wall clock is at least the time budget — is retired: its active
thread is marked `Finished`, no statement of it is executed (the loop
equation holds for every action function, which is never invoked), it is
not routed into the resulting-states map, and the search continues with
the remaining scheduled states. -/
theorem driver_retires_on_budget (act : EState → EState × ActionResult × List EState)
    (program : Nat → CFGStmt) (flows : Nat → Option (List Nat))
    (k time_budget : Nat) (elapsed : Nat → Nat) (fuel : Nat)
    (s : EState) (rest : List EState) (resulting : List (Nat × List EState))
    (path_counter : Nat) (pc0 : Nat)
    (hpc : activePc s = some pc0)
    (hbound : k ≤ s.path_length ∨ time_budget ≤ elapsed fuel) :
    driverLoop act program flows k time_budget elapsed (fuel + 1) (s :: rest) resulting
        path_counter
      = driverLoop act program flows k time_budget elapsed fuel rest resulting path_counter
    ∧ getState (retireState { s with path := s.path ++ [(s.active_thread, pc0)] })
        s.active_thread = some .Finished := by
  obtain ⟨th, hth⟩ : ∃ th, getThread s s.active_thread = some th := by
    cases hth2 : getThread s s.active_thread with
    | none => rw [activePc, hth2] at hpc; cases hpc
    | some th => exact ⟨th, rfl⟩
  constructor
  · simp only [driverLoop, hpc]
    rw [if_pos hbound]
  · rw [retireState, getState_setThreadState, if_pos rfl]
    have hgs : getState { s with path := s.path ++ [(s.active_thread, pc0)] }
        s.active_thread = getState s s.active_thread := rfl
    rw [hgs, getState, hth]
    rfl

/-- Scheduled state for the C7 witness: one thread at pc 4, path length 2. -/
def c7StateW : EState :=
  ⟨[⟨0, 4, .Enabled, [], none⟩], 0, [], [], 2, 0⟩

/-- Witness for C7 at a concrete input with k = 2 ≤ path length 2: the
popped state is dropped from the loop without consulting the action step
and its active thread is marked `Finished`. -/
theorem driver_retires_on_budget_witness :
    (driverLoop (fun s => (s, .Continue, [])) (fun _ => .Statement .Other) (fun _ => none)
        2 10 (fun _ => 0) 4 (c7StateW :: []) [] 0
      = driverLoop (fun s => (s, .Continue, [])) (fun _ => .Statement .Other) (fun _ => none)
        2 10 (fun _ => 0) 3 [] [] 0)
    ∧ getState (retireState { c7StateW with path := c7StateW.path ++ [(0, 4)] }) 0
        = some .Finished := by
  have h := driver_retires_on_budget (fun s => (s, .Continue, []))
    (fun _ => .Statement .Other) (fun _ => none) 2 10 (fun _ => 0) 3 c7StateW [] [] 0 4
    rfl (Or.inl (by decide))
  exact h

/-! ### MD2U cost algebra (md2u_recursive.rs) -/

/-- `DistanceType` (md2u_recursive.rs 21-25); the derived `Ord` puts
`ToFirstUncovered` before `ToEndOfMethod`. -/
inductive DistanceType
  | ToFirstUncovered
  | ToEndOfMethod
deriving DecidableEq, Repr

/-- Rank of a `DistanceType` in its derived order. -/
def DistanceType.toNat : DistanceType → Nat
  | .ToFirstUncovered => 0
  | .ToEndOfMethod => 1

/-- `std::cmp::min` on `DistanceType` (first argument wins ties). -/
def minDT (a b : DistanceType) : DistanceType :=
  if b.toNat < a.toNat then b else a

/-- `Distance` (md2u_recursive.rs 27-31); the `u64` value is embedded as a
`Nat`, and the derived `Ord` is lexicographic on (distance_type, value). -/
structure Distance where
  distance_type : DistanceType
  value : Nat
deriving DecidableEq, Repr

/-- Strict less-than of the derived lexicographic order on `Distance`. -/
def Distance.ltb (a b : Distance) : Bool :=
  a.distance_type.toNat < b.distance_type.toNat
    || (a.distance_type == b.distance_type && a.value < b.value)

/-- `std::cmp::min` on `Distance` (first argument wins ties). -/
def minD (a b : Distance) : Distance :=
  if Distance.ltb b a then b else a

/-- `Distance::plus` (md2u_recursive.rs 33-38). -/
def Distance.plus (d : Distance) (cost : Nat) : Distance :=
  { d with value := d.value + cost }

/-- `CumulativeCost` (md2u_recursive.rs 43-53). -/
inductive CumulativeCost
  | Cost (d : Distance)
  | Cycle (pc : Nat) (cost : Nat)
  | Plus (c1 c2 : CumulativeCost)
  | UnexploredMethodCall (name : String)
  | Minimal (c1 c2 : CumulativeCost)
deriving DecidableEq, Repr

/-- `CumulativeCost::plus` (md2u_recursive.rs 62-78). -/
def CumulativeCost.plus : CumulativeCost → Nat → CumulativeCost
  | .Cost d, cost => .Cost (d.plus cost)
  | .Cycle pc c, cost => .Cycle pc (c + cost)
  | .Plus c1 c2, cost => .Plus c1 (c2.plus cost)
  | .UnexploredMethodCall m, cost =>
      .Plus (.UnexploredMethodCall m) (.Cost ⟨.ToEndOfMethod, cost⟩)
  | .Minimal c1 c2, cost => .Minimal (c1.plus cost) (c2.plus cost)

/-- `CumulativeCost::increased_by_one` (md2u_recursive.rs 58-60). -/
def CumulativeCost.increased_by_one (c : CumulativeCost) : CumulativeCost :=
  c.plus 1

/-- `minimize` (md2u_recursive.rs 513-520), with the source's match order:
two concrete costs take their minimum, a `Cycle` yields to the other
operand, and anything else is deferred as `Minimal`. -/
def minimize (a b : CumulativeCost) : CumulativeCost :=
  match a, b with
  | .Cost d1, .Cost d2 => .Cost (minD d1 d2)
  | .Cycle _ _, _ => b
  | _, .Cycle _ _ => a
  | _, _ => .Minimal a b

/-- `fix_cycles` (md2u_recursive.rs 421-439): collect every map entry whose
value is `Cycle(pc, c)` for the given pc, then re-insert it as the given
resulting cost plus `c`. Every repaired key already exists in the map, so
the collect-then-insert pass equals a pointwise update of the values. -/
def fix_cycles (pc : Nat) (resulting_cost : CumulativeCost)
    (pc_to_cost : List (Nat × CumulativeCost)) : List (Nat × CumulativeCost) :=
  pc_to_cost.map (fun kv =>
    match kv.2 with
    | .Cycle cycle_pc cost =>
        if pc == cycle_pc then (kv.1, resulting_cost.plus cost) else kv
    | _ => kv)

/-! ### C9: idempotence of fix_cycles -/

/-- C9 counterexample: with the repair cost itself a `Cycle` at the same
pc (extra 1), a second application of `fix_cycles` adds the extra again:
one application of `fix_cycles 0 (Cycle 0 1)` turns the map
`[(5, Cycle 0 0)]` into `[(5, Cycle 0 1)]`, a second into
`[(5, Cycle 0 2)]` — so `fix_cycles` is not idempotent for every choice of
pc, cost and map. -/
theorem fix_cycles_not_idempotent :
    fix_cycles 0 (.Cycle 0 1) (fix_cycles 0 (.Cycle 0 1) [(5, .Cycle 0 0)])
      ≠ fix_cycles 0 (.Cycle 0 1) [(5, .Cycle 0 0)] := by
  decide

/-- C9 (amended): `fix_cycles pc c` is idempotent for fixed arguments
whenever `c` is not itself a cycle tied to the same pc with a nonzero
extra — the only shape on which the second application adds the extra
again, and a shape that never arises in `min_distance_to_statement`, which
always passes the loop head's resolved cost. -/
theorem fix_cycles_idempotent (pc : Nat) (c : CumulativeCost)
    (m : List (Nat × CumulativeCost))
    (h : ∀ j, c = .Cycle pc j → j = 0) :
    fix_cycles pc c (fix_cycles pc c m) = fix_cycles pc c m := by
  induction m with
  | nil => rfl
  | cons kv m ih =>
      simp only [fix_cycles, List.map_cons] at ih ⊢
      rw [ih]
      congr 1
      cases hv : kv.2 with
      | Cycle cpc j =>
          by_cases hpc : pc = cpc
          · subst hpc
            cases c with
            | Cycle cpc2 j0 =>
                by_cases hpc2 : pc = cpc2
                · have hj0 : j0 = 0 := h j0 (by rw [hpc2])
                  subst hpc2
                  subst hj0
                  simp [CumulativeCost.plus, hv]
                · simp [CumulativeCost.plus, hv, hpc2]
            | Cost d => simp [CumulativeCost.plus, hv]
            | Plus c1 c2 => simp [CumulativeCost.plus, hv]
            | UnexploredMethodCall n => simp [CumulativeCost.plus, hv]
            | Minimal c1 c2 => simp [CumulativeCost.plus, hv]
          · simp [hv, hpc]
      | Cost d => simp [hv]
      | Plus c1 c2 => simp [hv]
      | UnexploredMethodCall n => simp [hv]
      | Minimal c1 c2 => simp [hv]

/-- Witness for the amended C9 theorem: repairing two cycle entries with a
concrete cost is idempotent. -/
theorem fix_cycles_idempotent_witness :
    fix_cycles 8 (.Cost ⟨.ToEndOfMethod, 4⟩)
        (fix_cycles 8 (.Cost ⟨.ToEndOfMethod, 4⟩) [(10, .Cycle 8 2), (12, .Cycle 8 1)])
      = fix_cycles 8 (.Cost ⟨.ToEndOfMethod, 4⟩) [(10, .Cycle 8 2), (12, .Cycle 8 1)] :=
  fix_cycles_idempotent 8 (.Cost ⟨.ToEndOfMethod, 4⟩) [(10, .Cycle 8 2), (12, .Cycle 8 1)]
    (by intro j hj; cases hj)

/-! ### MD2U traversal (md2u_recursive.rs 87-511) -/

/-- Association-list insert with replace semantics
(`HashMap::insert`). -/
def insertCost (m : List (Nat × CumulativeCost)) (k : Nat) (v : CumulativeCost) :
    List (Nat × CumulativeCost) :=
  if m.any (fun e => e.1 == k) then m.map (fun e => if e.1 == k then (k, v) else e)
  else m ++ [(k, v)]

/-- `pc_to_cost.contains_key(&pc)`. -/
def containsCost (m : List (Nat × CumulativeCost)) (k : Nat) : Bool :=
  m.any (fun e => e.1 == k)

/-- `pc_to_cost[&pc]`. -/
def lookupCost : List (Nat × CumulativeCost) → Nat → Option CumulativeCost
  | [], _ => none
  | e :: m, k => if e.1 == k then some e.2 else lookupCost m k

/-- `pc_to_cost.extend(other)`: insert every entry of the second map. -/
def extendCost (m other : List (Nat × CumulativeCost)) : List (Nat × CumulativeCost) :=
  other.foldl (fun acc kv => insertCost acc kv.1 kv.2) m

/-- Method-cost cache lookup (`cache.get(&method)`). -/
def lookupCache : List (MethodIdentifier × CumulativeCost) → MethodIdentifier →
    Option CumulativeCost
  | [], _ => none
  | e :: m, k => if e.1 == k then some e.2 else lookupCache m k

/-- Method-cost cache insert (`cache.insert(method, cost)`). -/
def insertCache (m : List (MethodIdentifier × CumulativeCost)) (k : MethodIdentifier)
    (v : CumulativeCost) : List (MethodIdentifier × CumulativeCost) :=
  if m.any (fun e => e.1 == k) then m.map (fun e => if e.1 == k then (k, v) else e)
  else m ++ [(k, v)]

/-- `visited.insert(pc)` on the `HashSet` of visited program counters. -/
def insertVisited (visited : List Nat) (pc : Nat) : List Nat :=
  if visited.contains pc then visited else visited ++ [pc]

/-- `check_for_reducability` (md2u_recursive.rs 198-206): the cost can be
solved if its only unexplored-method placeholders name the current method. -/
def check_for_reducability (c : CumulativeCost) (current : MethodIdentifier) : Bool :=
  match c with
  | .Cost _ => true
  | .Cycle _ _ => true
  | .Plus c1 c2 => check_for_reducability c1 current && check_for_reducability c2 current
  | .UnexploredMethodCall m => current.method_name == m
  | .Minimal c1 c2 => check_for_reducability c1 current && check_for_reducability c2 current

/-- The inner `reduce` of md2u_recursive.rs 209-236: substitute
self-recursive placeholders away. The outer `Option` is the `unreachable!`
panic on a `Cycle`; the inner one is the function's own `Option<Distance>`
(`None` when a placeholder blocks a `Plus`). -/
def reduceCost : CumulativeCost → Option (Option Distance)
  | .Cost d => some (some d)
  | .Plus c1 c2 =>
      match reduceCost c1, reduceCost c2 with
      | some r1, some r2 =>
          match r1, r2 with
          | some d1, some d2 =>
              some (some ⟨minDT d1.distance_type d2.distance_type, d1.value + d2.value⟩)
          | _, _ => some none
      | _, _ => none
  | .UnexploredMethodCall _ => some none
  | .Minimal c1 c2 =>
      match reduceCost c1, reduceCost c2 with
      | some r1, some r2 =>
          match r1, r2 with
          | some d1, some d2 => some (some (minD d1 d2))
          | some d1, none => some (some d1)
          | none, some d2 => some (some d2)
          | none, none => some none
      | _, _ => none
  | .Cycle _ _ => none

/-- `replace_method_call_in_costs` (md2u_recursive.rs 384-419), with the
source's arm order; `none` is the `todo!` panic on a `Cycle`. On a `Plus`
whose replaced children are not both concrete the source returns the
ORIGINAL cost unchanged; on a `Minimal` it rebuilds a `Plus` from the
replaced children. -/
def replace_method_call_in_costs (method_name : String) :
    CumulativeCost → Distance → Option CumulativeCost
  | .Plus c1 c2, resulting_cost =>
      match replace_method_call_in_costs method_name c1 resulting_cost,
            replace_method_call_in_costs method_name c2 resulting_cost with
      | some (.Cost d1), some (.Cost d2) =>
          some (.Cost ⟨minDT d1.distance_type d2.distance_type, d1.value + d2.value⟩)
      | some _, some _ => some (.Plus c1 c2)
      | _, _ => none
  | .UnexploredMethodCall m, resulting_cost =>
      if method_name == m then some (.Cost resulting_cost)
      else some (.UnexploredMethodCall m)
  | .Cycle _ _, _ => none
  | .Minimal c1 c2, resulting_cost =>
      match replace_method_call_in_costs method_name c1 resulting_cost,
            replace_method_call_in_costs method_name c2 resulting_cost with
      | some (.Cost d1), some (.Cost d2) => some (.Cost (minD d1 d2))
      | some r1, some r2 => some (.Plus r1 r2)
      | _, _ => none
  | .Cost d, _ => some (.Cost d)

/-- `cleanup_pc_to_cost` (md2u_recursive.rs 365-382): normalize every map
entry through `replace_method_call_in_costs`. -/
def cleanup_pc_to_cost (method_name : String) (m : List (Nat × CumulativeCost))
    (resulting_cost : Distance) : Option (List (Nat × CumulativeCost)) :=
  m.mapM (fun kv =>
    (replace_method_call_in_costs method_name kv.2 resulting_cost).map
      (fun v => (kv.1, v)))

/-- The static inputs of the md2u computation: the labelled statements,
the flow edges, the coverage map (only key membership is consulted), and
the method-entry lookup (`find_entry_for_static_invocation`, an external
collaborator fed by the symbol table). -/
structure Md2uProgram where
  program : Nat → CFGStmt
  flow : Nat → List Nat
  coverage : Nat → Bool
  entryOf : MethodIdentifier → Nat

mutual

/-- `min_distance_to_uncovered_method_helper` (md2u_recursive.rs 154-250):
traverse the method body from its entry with a fresh per-method cost map,
then close over the body cost: a concrete cost is cleaned up directly; an
unresolved one is solved through reducibility when every placeholder names
the current method, else kept; the result is cached. `none` is a panic or
fuel exhaustion of the embedding. -/
def md2u_helper (fuel : Nat) (P : Md2uProgram) (method : MethodIdentifier)
    (cache : List (MethodIdentifier × CumulativeCost)) (visited : List Nat) :
    Option (CumulativeCost × List (Nat × CumulativeCost) ×
      List (MethodIdentifier × CumulativeCost) × List Nat) :=
  match fuel with
  | 0 => none
  | fuel + 1 =>
      match min_distance_to_statement fuel P (P.entryOf method) method [] cache visited with
      | none => none
      | some (body_cost, map1, cache1, vis1) =>
          match body_cost with
          | .Cost d =>
              match cleanup_pc_to_cost method.method_name map1 d with
              | none => none
              | some map2 =>
                  some (.Cost d, map2, insertCache cache1 method (.Cost d), vis1)
          | other =>
              if check_for_reducability other method then
                match reduceCost other with
                | none => none
                | some none => none
                | some (some d) =>
                    match cleanup_pc_to_cost method.method_name map1 d with
                    | none => none
                    | some map2 =>
                        some (.Cost d, map2, insertCache cache1 method (.Cost d), vis1)
              else
                some (other, map1, insertCache cache1 method other, vis1)

/-- `min_distance_to_statement` (md2u_recursive.rs 254-363): mark the pc
visited, short-circuit on a memoized cost, close `FunctionExit` nodes with
cost 1, otherwise combine the minimum successor cost (a revisited `While`
successor becomes `Cycle(pc, 0)`) with the statement's own cost, repairing
cycle entries when a `While` head resolves. -/
def min_distance_to_statement (fuel : Nat) (P : Md2uProgram) (pc : Nat)
    (method : MethodIdentifier) (pc_to_cost : List (Nat × CumulativeCost))
    (cache : List (MethodIdentifier × CumulativeCost)) (visited : List Nat) :
    Option (CumulativeCost × List (Nat × CumulativeCost) ×
      List (MethodIdentifier × CumulativeCost) × List Nat) :=
  match fuel with
  | 0 => none
  | fuel + 1 =>
      let statement := P.program pc
      let visited := insertVisited visited pc
      if containsCost pc_to_cost pc then
        match lookupCost pc_to_cost pc with
        | some c => some (c, pc_to_cost, cache, visited)
        | none => none
      else
        match statement with
        | .FunctionExit =>
            let distance : Distance :=
              if !(P.coverage pc) then ⟨.ToFirstUncovered, 1⟩ else ⟨.ToEndOfMethod, 1⟩
            some (.Cost distance, insertCost pc_to_cost pc (.Cost distance), cache, visited)
        | _ =>
            match P.flow pc with
            | [] => none
            | n :: ns =>
                match successor_costs fuel P (n :: ns) method pc_to_cost cache visited with
                | none => none
                | some (c0 :: cs, map1, cache1, vis1) =>
                    let remaining_cost := cs.foldl minimize c0
                    match statement_cost fuel P pc map1 cache1 vis1 with
                    | none => none
                    | some (cost_of_this, map2, cache2, vis2) =>
                        match cost_of_this with
                        | .Cost d =>
                            if d.distance_type = .ToEndOfMethod then
                              let cost := remaining_cost.plus d.value
                              let map3 :=
                                if P.program pc = CFGStmt.While then
                                  fix_cycles pc cost map2
                                else map2
                              some (cost, insertCost map3 pc cost, cache2, vis2)
                            else
                              some (cost_of_this, insertCost map2 pc cost_of_this,
                                cache2, vis2)
                        | .Plus c1 c2 =>
                            let cost := CumulativeCost.Plus (.Plus c1 c2) remaining_cost
                            some (cost, insertCost map2 pc cost, cache2, vis2)
                        | .UnexploredMethodCall mn =>
                            let cost :=
                              CumulativeCost.Plus (.UnexploredMethodCall mn) remaining_cost
                            some (cost, insertCost map2 pc cost, cache2, vis2)
                        | .Cycle _ _ => none
                        | .Minimal c1 c2 =>
                            let cost := CumulativeCost.Plus (.Minimal c1 c2) remaining_cost
                            some (cost, insertCost map2 pc cost, cache2, vis2)
                | some ([], _, _, _) => none

/-- The successor sweep inside `min_distance_to_statement`
(md2u_recursive.rs 296-311): visit the successors left to right, threading
the cost map, cache and visited set; a successor that is an already
visited `While` head yields `Cycle(next_pc, 0)` without recursing. -/
def successor_costs (fuel : Nat) (P : Md2uProgram) (nexts : List Nat)
    (method : MethodIdentifier) (pc_to_cost : List (Nat × CumulativeCost))
    (cache : List (MethodIdentifier × CumulativeCost)) (visited : List Nat) :
    Option (List CumulativeCost × List (Nat × CumulativeCost) ×
      List (MethodIdentifier × CumulativeCost) × List Nat) :=
  match fuel with
  | 0 => none
  | fuel + 1 =>
      match nexts with
      | [] => some ([], pc_to_cost, cache, visited)
      | n :: rest =>
          if P.program n = CFGStmt.While ∧ visited.contains n then
            match successor_costs fuel P rest method pc_to_cost cache visited with
            | none => none
            | some (cs, map1, cache1, vis1) =>
                some (.Cycle n 0 :: cs, map1, cache1, vis1)
          else
            match min_distance_to_statement fuel P n method pc_to_cost cache visited with
            | none => none
            | some (c, map1, cache1, vis1) =>
                match successor_costs fuel P rest method map1 cache1 vis1 with
                | none => none
                | some (cs, map2, cache2, vis2) =>
                    some (c :: cs, map2, cache2, vis2)

/-- `statement_cost` (md2u_recursive.rs 443-511): an uncovered statement
costs a strict 1; an invocation delegates to the resolved methods' costs
(cache, recursion placeholder, or a recursive method traversal whose cost
map is merged in), each increased by one and minimized; any other
statement costs 1 to the end of the method. -/
def statement_cost (fuel : Nat) (P : Md2uProgram) (pc : Nat)
    (pc_to_cost : List (Nat × CumulativeCost))
    (cache : List (MethodIdentifier × CumulativeCost)) (visited : List Nat) :
    Option (CumulativeCost × List (Nat × CumulativeCost) ×
      List (MethodIdentifier × CumulativeCost) × List Nat) :=
  match fuel with
  | 0 => none
  | fuel + 1 =>
      if !(P.coverage pc) then
        some (.Cost ⟨.ToFirstUncovered, 1⟩, pc_to_cost, cache, visited)
      else
        match P.program pc with
        | .Statement (.Invoke methods) =>
            match invocation_costs fuel P methods pc_to_cost cache visited with
            | none => none
            | some (c0 :: cs, map1, cache1, vis1) =>
                some (cs.foldl minimize c0, map1, cache1, vis1)
            | some ([], _, _, _) => none
        | _ => some (.Cost ⟨.ToEndOfMethod, 1⟩, pc_to_cost, cache, visited)

/-- The per-resolved-method sweep inside `statement_cost`
(md2u_recursive.rs 468-501): use the cached cost when present; emit an
`UnexploredMethodCall` placeholder when the callee entry was already
visited (recursion); otherwise traverse the callee with
`md2u_helper` and merge its cost map into the caller's. Each cost is
increased by one. -/
def invocation_costs (fuel : Nat) (P : Md2uProgram) (methods : List MethodIdentifier)
    (pc_to_cost : List (Nat × CumulativeCost))
    (cache : List (MethodIdentifier × CumulativeCost)) (visited : List Nat) :
    Option (List CumulativeCost × List (Nat × CumulativeCost) ×
      List (MethodIdentifier × CumulativeCost) × List Nat) :=
  match fuel with
  | 0 => none
  | fuel + 1 =>
      match methods with
      | [] => some ([], pc_to_cost, cache, visited)
      | m :: rest =>
          match lookupCache cache m with
          | some c =>
              match invocation_costs fuel P rest pc_to_cost cache visited with
              | none => none
              | some (cs, map1, cache1, vis1) =>
                  some (c.increased_by_one :: cs, map1, cache1, vis1)
          | none =>
              if visited.contains (P.entryOf m) then
                match invocation_costs fuel P rest pc_to_cost cache visited with
                | none => none
                | some (cs, map1, cache1, vis1) =>
                    some (CumulativeCost.increased_by_one
                        (.UnexploredMethodCall m.method_name) :: cs,
                      map1, cache1, vis1)
              else
                match md2u_helper fuel P m cache visited with
                | none => none
                | some (c, method_map, cache1, vis1) =>
                    match invocation_costs fuel P rest
                        (extendCost pc_to_cost method_map) cache1 vis1 with
                    | none => none
                    | some (cs, map2, cache2, vis2) =>
                        some (c.increased_by_one :: cs, map2, cache2, vis2)

end

/-- `min_distance_to_uncovered_method_helper1` (md2u_recursive.rs
104-150): run the traversal, demand concrete distances everywhere, and
prune incomplete or uncovered-typed entries from the method cache. -/
def md2u_helper1 (fuel : Nat) (P : Md2uProgram) (method : MethodIdentifier)
    (cache : List (MethodIdentifier × CumulativeCost)) :
    Option (Distance × List (Nat × Distance) ×
      List (MethodIdentifier × CumulativeCost)) :=
  match md2u_helper fuel P method cache [] with
  | none => none
  | some (cost, map1, cache1, _) =>
      match cost with
      | .Cost distance =>
          match map1.mapM (fun kv =>
              match kv.2 with
              | .Cost d => some (kv.1, d)
              | _ => none) with
          | none => none
          | some pc_to_distance =>
              let cache2 := cache1.filter (fun kv =>
                match kv.2 with
                | .Cost d => d.distance_type == .ToEndOfMethod
                | _ => false)
              some (distance, pc_to_distance, cache2)
      | _ => none

/-- `min_distance_to_uncovered_method` (md2u_recursive.rs 87-101): reset
the visited set and run the traversal; the caller receives the method
distance and the per-pc distance map. -/
def min_distance_to_uncovered_method (fuel : Nat) (P : Md2uProgram)
    (method : MethodIdentifier)
    (cache : List (MethodIdentifier × CumulativeCost)) :
    Option (Distance × List (Nat × Distance)) :=
  (md2u_helper1 fuel P method cache).map (fun r => (r.1, r.2.1))

/-! ### C6: the fully covered while-loop cost table -/

/-- Insertion into a key-sorted association list, to present a cost map in
canonical pc order (`HashMap` equality is key set plus values). -/
def insertByKey (p : Nat × Distance) : List (Nat × Distance) → List (Nat × Distance)
  | [] => [p]
  | q :: qs => if p.1 ≤ q.1 then p :: q :: qs else q :: insertByKey p qs

/-- Sort a distance map by program counter. -/
def sortByKey (l : List (Nat × Distance)) : List (Nat × Distance) :=
  l.foldr insertByKey []

/-- The entry method of the while-loop reachability program
(`Main.main(int)`). -/
def mainMethodW : MethodIdentifier := ⟨"Main", "main", ["int"]⟩

/-- The labelled CFG of the single-method program
`main(int i) { while (i < 10) i = i + 1; }` as the CFG builder labels it
(program counters taken from the md2u_single_while test, lines 608-643):
straight-line statements at 0, 2, 5; the `While` head at 8; the loop body
at 10 and 12 flowing back to 8; the exit path 15, 17; `FunctionExit` at
18. Every pc is covered. -/
def whileP : Md2uProgram where
  program := fun pc =>
    if pc = 8 then .While
    else if pc = 18 then .FunctionExit
    else .Statement .Other
  flow := fun pc =>
    if pc = 0 then [2] else if pc = 2 then [5] else if pc = 5 then [8]
    else if pc = 8 then [10, 15] else if pc = 10 then [12] else if pc = 12 then [8]
    else if pc = 15 then [17] else if pc = 17 then [18] else []
  coverage := fun _ => true
  entryOf := fun _ => 0

/-- C6: on the fully covered while-loop program, the MD2U computation
produces exactly the cost map
{0:7, 2:6, 5:5, 8:4, 10:6, 12:5, 15:3, 17:2, 18:1}, every entry of
distance type `ToEndOfMethod`. -/
theorem md2u_single_while_table :
    (min_distance_to_uncovered_method 100 whileP mainMethodW []).map
        (fun r => sortByKey r.2)
      = some [(0, ⟨.ToEndOfMethod, 7⟩), (2, ⟨.ToEndOfMethod, 6⟩), (5, ⟨.ToEndOfMethod, 5⟩),
          (8, ⟨.ToEndOfMethod, 4⟩), (10, ⟨.ToEndOfMethod, 6⟩), (12, ⟨.ToEndOfMethod, 5⟩),
          (15, ⟨.ToEndOfMethod, 3⟩), (17, ⟨.ToEndOfMethod, 2⟩),
          (18, ⟨.ToEndOfMethod, 1⟩)] := by
  decide
